import Mathlib

/-!
Verification of the unravel module (`repair/unravel.py`).

The module "unravels" a neuronal morphology: for every section of the tree it
replaces each segment direction by the principal direction of a sliding window
of the original points, rescaled to the original segment length, and chains the
new segments starting from the parent's last unravelled point.

Modelling choices:
* 3-D points are triples of real numbers (`V3`); numpy float arithmetic is
  idealised as exact real arithmetic.
* `np.sign` is `Real.sign` (both map negatives to -1, zero to 0, positives
  to 1).
* `np.linalg.eig` is specified, not computed: `_get_principal_direction`
  returns *some* eigenvector of the covariance matrix for its largest
  eigenvalue, with unspecified sign and scale.  The unraveller is therefore
  parametrised by an estimator `pd : List V3 → V3`, and theorems that depend
  on the estimator's value assume `IsPrincipalDirection` about it on the
  windows involved.
* `morph.iter()` enumerates sections parent-before-child; a morphology is a
  list of sections, each holding an optional parent index that, for
  well-formed inputs, points strictly earlier in the list.
* Lean's total division (`x / 0 = 0`) replaces the float `nan`/`inf` of a
  division by zero; all theorems stay away from that degenerate case.
-/

namespace NeuroR

/-- A 3-D point with real coordinates, one row of the numpy arrays used by
`unravel.py`. -/
@[ext]
structure V3 where
  x : ℝ
  y : ℝ
  z : ℝ

instance : Zero V3 := ⟨⟨0, 0, 0⟩⟩

instance : Add V3 := ⟨fun a b => ⟨a.x + b.x, a.y + b.y, a.z + b.z⟩⟩

instance : Sub V3 := ⟨fun a b => ⟨a.x - b.x, a.y - b.y, a.z - b.z⟩⟩

instance : SMul ℝ V3 := ⟨fun t a => ⟨t * a.x, t * a.y, t * a.z⟩⟩

@[simp] theorem V3.zero_x : (0 : V3).x = 0 := rfl

@[simp] theorem V3.zero_y : (0 : V3).y = 0 := rfl

@[simp] theorem V3.zero_z : (0 : V3).z = 0 := rfl

@[simp] theorem V3.add_x (a b : V3) : (a + b).x = a.x + b.x := rfl

@[simp] theorem V3.add_y (a b : V3) : (a + b).y = a.y + b.y := rfl

@[simp] theorem V3.add_z (a b : V3) : (a + b).z = a.z + b.z := rfl

@[simp] theorem V3.sub_x (a b : V3) : (a - b).x = a.x - b.x := rfl

@[simp] theorem V3.sub_y (a b : V3) : (a - b).y = a.y - b.y := rfl

@[simp] theorem V3.sub_z (a b : V3) : (a - b).z = a.z - b.z := rfl

@[simp] theorem V3.smul_x (t : ℝ) (a : V3) : (t • a).x = t * a.x := rfl

@[simp] theorem V3.smul_y (t : ℝ) (a : V3) : (t • a).y = t * a.y := rfl

@[simp] theorem V3.smul_z (t : ℝ) (a : V3) : (t • a).z = t * a.z := rfl

/-- Euclidean inner product of two 3-D points (`np.dot`). -/
def dot (a b : V3) : ℝ := a.x * b.x + a.y * b.y + a.z * b.z

/-- Euclidean norm of a 3-D point (`np.linalg.norm`). -/
noncomputable def vnorm (v : V3) : ℝ := Real.sqrt (dot v v)

theorem dot_self_nonneg (v : V3) : 0 ≤ dot v v := by
  have hx := sq_nonneg v.x
  have hy := sq_nonneg v.y
  have hz := sq_nonneg v.z
  simp only [dot]
  nlinarith

theorem dot_self_pos {v : V3} (hv : v ≠ 0) : 0 < dot v v := by
  rcases lt_or_eq_of_le (dot_self_nonneg v) with h | h
  · exact h
  · exfalso
    apply hv
    have hx := sq_nonneg v.x
    have hy := sq_nonneg v.y
    have hz := sq_nonneg v.z
    simp only [dot] at h
    ext <;> simp <;> nlinarith

@[simp] theorem dot_zero_left (v : V3) : dot 0 v = 0 := by simp [dot]

@[simp] theorem dot_zero_right (v : V3) : dot v 0 = 0 := by simp [dot]

theorem dot_smul_right (t : ℝ) (a b : V3) : dot a (t • b) = t * dot a b := by
  simp [dot]; ring

theorem dot_smul_left (t : ℝ) (a b : V3) : dot (t • a) b = t * dot a b := by
  simp [dot]; ring

theorem smul_smul_v3 (s t : ℝ) (v : V3) : s • t • v = (s * t) • v := by
  ext <;> simp <;> ring

@[simp] theorem one_smul_v3 (v : V3) : (1 : ℝ) • v = v := by ext <;> simp

@[simp] theorem zero_smul_v3 (v : V3) : (0 : ℝ) • v = 0 := by ext <;> simp

theorem smul_eq_zero_v3 {t : ℝ} {v : V3} : t • v = 0 ↔ t = 0 ∨ v = 0 := by
  constructor
  · intro h
    by_cases ht : t = 0
    · exact Or.inl ht
    · refine Or.inr ?_
      have hx := congrArg V3.x h
      have hy := congrArg V3.y h
      have hz := congrArg V3.z h
      simp at hx hy hz
      ext <;> simp
      · exact (hx.resolve_left ht)
      · exact (hy.resolve_left ht)
      · exact (hz.resolve_left ht)
  · rintro (rfl | rfl) <;> ext <;> simp

theorem smul_left_injective_v3 {e : V3} (he : e ≠ 0) {a b : ℝ}
    (h : a • e = b • e) : a = b := by
  by_contra hab
  apply he
  have hx := congrArg V3.x h
  have hy := congrArg V3.y h
  have hz := congrArg V3.z h
  simp at hx hy hz
  ext <;> simp
  · exact hx.resolve_left hab
  · exact hy.resolve_left hab
  · exact hz.resolve_left hab

theorem vnorm_nonneg (v : V3) : 0 ≤ vnorm v := Real.sqrt_nonneg _

theorem vnorm_pos {v : V3} (hv : v ≠ 0) : 0 < vnorm v :=
  Real.sqrt_pos.mpr (dot_self_pos hv)

@[simp] theorem vnorm_zero : vnorm (0 : V3) = 0 := by simp [vnorm]

theorem vnorm_smul (t : ℝ) (v : V3) : vnorm (t • v) = |t| * vnorm v := by
  have : dot (t • v) (t • v) = t ^ 2 * dot v v := by simp [dot]; ring
  rw [vnorm, this, Real.sqrt_mul (sq_nonneg t), Real.sqrt_sq_eq_abs, vnorm]

/-!
Sliding window (`unravel`, lines 55-58):
`window_start = max(0, window_center - window_half_length - 1)`,
`window_end = min(point_count, window_center + window_half_length + 1)`,
and the slice `points[window_start:window_end]`.
Python's `max(0, ...)` over signed integers is modelled in `ℤ` before
converting to a list index.
-/

/-- Start index of the sliding window for segment `i` with half length `H`. -/
def windowStart (i H : ℕ) : ℤ := max 0 ((i : ℤ) - H - 1)

/-- One-past-the-end index of the sliding window for segment `i` in a section
of `n` points. -/
def windowEnd (n i H : ℕ) : ℤ := min (n : ℤ) ((i : ℤ) + H + 1)

/-- The Python slice `points[window_start:window_end]`. -/
def window (H : ℕ) (pts : List V3) (i : ℕ) : List V3 :=
  (pts.drop (windowStart i H).toNat).take
    ((windowEnd pts.length i H).toNat - (windowStart i H).toNat)

theorem windowStart_toNat (i H : ℕ) : (windowStart i H).toNat = i - (H + 1) := by
  simp only [windowStart]
  omega

theorem windowEnd_toNat (n i H : ℕ) :
    (windowEnd n i H).toNat = min n (i + H + 1) := by
  simp only [windowEnd]
  omega

theorem window_length (H : ℕ) (pts : List V3) (i : ℕ) :
    (window H pts i).length =
      (windowEnd pts.length i H).toNat - (windowStart i H).toNat := by
  simp only [window, List.length_take, List.length_drop]
  rw [windowStart_toNat, windowEnd_toNat]
  omega

theorem window_getD (H : ℕ) (pts : List V3) (i j : ℕ)
    (hj : j < (window H pts i).length) :
    (window H pts i).getD j 0 = pts.getD ((windowStart i H).toNat + j) 0 := by
  have hlen := window_length H pts i
  have hb : (windowEnd pts.length i H).toNat ≤ pts.length := by
    rw [windowEnd_toNat]; omega
  have hidx : (windowStart i H).toNat + j < pts.length := by omega
  rw [List.getD_eq_getElem _ _ hj, List.getD_eq_getElem _ _ hidx]
  simp only [window]
  rw [List.getElem_take, List.getElem_drop]

/-!
Principal direction estimator (`_get_principal_direction`, lines 17-25):

    X = np.copy(np.asarray(points))
    X -= np.mean(X, axis=0)
    C = np.dot(X.T, X)
    w, v = np.linalg.eig(C)
    return v[:, w.argmax()]

The centering and the covariance matrix are modelled exactly; the
eigen-decomposition `np.linalg.eig` only guarantees that the returned column
is an eigenvector for the largest eigenvalue (its sign and its scale are
implementation details of the numerical library), so the return value is
specified by the predicate `IsPrincipalDirection` instead of being computed.
-/

/-- Sum of a list of points. -/
def vsum (l : List V3) : V3 := l.foldr (· + ·) 0

/-- Centroid of a point cloud (`np.mean(X, axis=0)`). -/
noncomputable def mean (pts : List V3) : V3 := ((pts.length : ℝ))⁻¹ • vsum pts

/-- The cloud re-centered on its centroid (`X -= np.mean(X, axis=0)`). -/
noncomputable def centered (pts : List V3) : List V3 :=
  pts.map (fun q => q - mean pts)

/-- The covariance matrix `C = Xᵀ X` of the centered cloud, applied to a
vector: `C w = Σᵢ (xᵢ · w) xᵢ` over the centered rows `xᵢ`. -/
noncomputable def covMul (pts : List V3) (w : V3) : V3 :=
  vsum ((centered pts).map (fun u => dot u w • u))

/-- The contract of `_get_principal_direction`: `v` is an eigenvector of the
covariance matrix of `pts` whose eigenvalue is the largest one. -/
noncomputable def IsPrincipalDirection (pts : List V3) (v : V3) : Prop :=
  v ≠ 0 ∧ ∃ μ : ℝ, covMul pts v = μ • v ∧
    ∀ (w : V3) (ν : ℝ), w ≠ 0 → covMul pts w = ν • w → ν ≤ μ

/-!
Inner loop of `unravel` (lines 54-68).  For `window_center = i` from 1 to
`point_count - 1`:

    direction = _get_principal_direction(points[window_start:window_end])
    segment = points[window_center] - points[window_center - 1]
    direction *= np.linalg.norm(segment) / np.linalg.norm(direction)
    direction *= np.sign(np.dot(segment, direction))
    unravelled_points.append(direction + unravelled_points[window_center - 1])
-/

/-- The original segment vector
`segment = points[window_center] - points[window_center - 1]`. -/
def segAt (pts : List V3) (i : ℕ) : V3 := pts.getD i 0 - pts.getD (i - 1) 0

/-- The sign-resolution step
`direction *= np.sign(np.dot(segment, direction))` (line 66). -/
noncomputable def signStep (s d : V3) : V3 := Real.sign (dot s d) • d

/-- The new offset appended for segment `i`: the estimated window direction,
rescaled to the original segment length (line 63) and sign-resolved
(line 66).  `pd` stands for `_get_principal_direction`. -/
noncomputable def offsetAt (pd : List V3 → V3) (H : ℕ) (pts : List V3)
    (i : ℕ) : V3 :=
  let d := pd (window H pts i)
  let s := segAt pts i
  let d2 := (vnorm s / vnorm d) • d
  signStep s d2

/-- The accumulator `unravelled_points` after the loop iterations
`window_center = 1, ..., n`; it starts as the one-element list `[start]`
and each iteration appends `direction + unravelled_points[window_center - 1]`
(line 68). -/
noncomputable def unravelAcc (pd : List V3 → V3) (H : ℕ) (pts : List V3)
    (start : V3) : ℕ → List V3
  | 0 => [start]
  | n + 1 =>
    let acc := unravelAcc pd H pts start n
    acc ++ [offsetAt pd H pts (n + 1) + acc.getD n 0]

/-- The full new point list of one section: the loop runs
`window_center` over `range(1, point_count)`. -/
noncomputable def unravelPoints (pd : List V3 → V3) (H : ℕ) (pts : List V3)
    (start : V3) : List V3 :=
  unravelAcc pd H pts start (pts.length - 1)

theorem unravelAcc_length (pd : List V3 → V3) (H : ℕ) (pts : List V3)
    (start : V3) (n : ℕ) : (unravelAcc pd H pts start n).length = n + 1 := by
  induction n with
  | zero => rfl
  | succ n ih => simp [unravelAcc, ih]

theorem unravelAcc_getD_succ (pd : List V3 → V3) (H : ℕ) (pts : List V3)
    (start : V3) (n : ℕ) :
    (unravelAcc pd H pts start (n + 1)).getD (n + 1) 0 =
      offsetAt pd H pts (n + 1) + (unravelAcc pd H pts start n).getD n 0 := by
  have hlen := unravelAcc_length pd H pts start n
  simp only [unravelAcc]
  rw [List.getD_append_right _ _ _ _ (by omega)]
  simp [hlen]

theorem unravelAcc_getD_stable (pd : List V3 → V3) (H : ℕ) (pts : List V3)
    (start : V3) {j m n : ℕ} (hjm : j ≤ m) (hmn : m ≤ n) :
    (unravelAcc pd H pts start n).getD j 0 =
      (unravelAcc pd H pts start m).getD j 0 := by
  induction n with
  | zero =>
    have : m = 0 := by omega
    subst this; rfl
  | succ n ih =>
    rcases Nat.lt_or_ge m (n + 1) with h | h
    · have hmn' : m ≤ n := by omega
      have := ih hmn'
      rw [← this]
      simp only [unravelAcc]
      rw [List.getD_append _ _ _ _ (by rw [unravelAcc_length]; omega)]
    · have : m = n + 1 := by omega
      subst this; rfl

theorem unravelAcc_getD_zero (pd : List V3 → V3) (H : ℕ) (pts : List V3)
    (start : V3) (n : ℕ) :
    (unravelAcc pd H pts start n).getD 0 0 = start := by
  rw [unravelAcc_getD_stable pd H pts start (Nat.le_refl 0) (Nat.zero_le n)]
  rfl

/-- Each output segment is exactly the offset computed for it. -/
theorem unravelAcc_seg (pd : List V3 → V3) (H : ℕ) (pts : List V3)
    (start : V3) {i n : ℕ} (h1 : 1 ≤ i) (h2 : i ≤ n) :
    (unravelAcc pd H pts start n).getD i 0 -
      (unravelAcc pd H pts start n).getD (i - 1) 0 =
      offsetAt pd H pts i := by
  obtain ⟨k, rfl⟩ : ∃ k, i = k + 1 := ⟨i - 1, by omega⟩
  rw [unravelAcc_getD_stable pd H pts start (Nat.le_refl (k + 1)) h2,
    show k + 1 - 1 = k from rfl,
    unravelAcc_getD_stable pd H pts start (Nat.le_refl k) (show k ≤ n by omega),
    unravelAcc_getD_succ]
  ext <;> simp

theorem unravelPoints_length (pd : List V3 → V3) (H : ℕ) (pts : List V3)
    (start : V3) (hne : pts ≠ []) :
    (unravelPoints pd H pts start).length = pts.length := by
  rw [unravelPoints, unravelAcc_length]
  have : pts.length ≠ 0 := by simpa using List.length_pos.mpr hne |>.ne'
  omega

theorem unravelPoints_getD_zero (pd : List V3 → V3) (H : ℕ) (pts : List V3)
    (start : V3) : (unravelPoints pd H pts start).getD 0 0 = start :=
  unravelAcc_getD_zero pd H pts start _

theorem unravelPoints_seg (pd : List V3 → V3) (H : ℕ) (pts : List V3)
    (start : V3) {i : ℕ} (h1 : 1 ≤ i) (h2 : i < pts.length) :
    (unravelPoints pd H pts start).getD i 0 -
      (unravelPoints pd H pts start).getD (i - 1) 0 =
      offsetAt pd H pts i :=
  unravelAcc_seg pd H pts start h1 (by omega)

/-- When the estimated direction is not orthogonal to the original segment,
the appended offset has exactly the original segment's length. -/
theorem offsetAt_norm (pd : List V3 → V3) (H : ℕ) (pts : List V3) (i : ℕ)
    (h : dot (segAt pts i) (pd (window H pts i)) ≠ 0) :
    vnorm (offsetAt pd H pts i) = vnorm (segAt pts i) := by
  set d := pd (window H pts i) with hd_def
  set s := segAt pts i with hs_def
  have hd : d ≠ 0 := by
    intro h0
    exact h (by rw [h0]; simp)
  have hs : s ≠ 0 := by
    intro h0
    exact h (by rw [h0]; simp)
  have hnd : 0 < vnorm d := vnorm_pos hd
  have hns : 0 < vnorm s := vnorm_pos hs
  set c := vnorm s / vnorm d with hc
  have hcpos : 0 < c := div_pos hns hnd
  have hkey : ∀ σ : ℝ, |σ| = 1 →
      vnorm (σ • c • d) = vnorm s := by
    intro σ hσ
    rw [vnorm_smul, vnorm_smul, hσ, one_mul, abs_of_pos hcpos, hc,
      div_mul_cancel₀ _ (ne_of_gt hnd)]
  show vnorm (signStep s (c • d)) = vnorm s
  rw [signStep, dot_smul_right]
  rcases lt_trichotomy (dot s d) 0 with hlt | heq | hgt
  · rw [Real.sign_of_neg (mul_neg_of_pos_of_neg hcpos hlt)]
    exact hkey _ (by norm_num)
  · exact absurd heq h
  · rw [Real.sign_of_pos (mul_pos hcpos hgt)]
    exact hkey _ (by norm_num)

/-- When the estimated direction is exactly orthogonal to the original
segment, `np.sign` returns 0 and the appended offset is the zero vector. -/
theorem offsetAt_dot_zero (pd : List V3 → V3) (H : ℕ) (pts : List V3) (i : ℕ)
    (h : dot (segAt pts i) (pd (window H pts i)) = 0) :
    offsetAt pd H pts i = 0 := by
  simp only [offsetAt, signStep, dot_smul_right, h, mul_zero, Real.sign_zero]
  ext <;> simp

/-- When the estimated direction is a nonzero multiple of the original
segment, the rescaling and the sign resolution reproduce the segment
exactly. -/
theorem offsetAt_parallel (pd : List V3 → V3) (H : ℕ) (pts : List V3) (i : ℕ)
    {t : ℝ} (ht : t ≠ 0) (hs : segAt pts i ≠ 0)
    (hpd : pd (window H pts i) = t • segAt pts i) :
    offsetAt pd H pts i = segAt pts i := by
  set s := segAt pts i with hs_def
  have hns : 0 < vnorm s := vnorm_pos hs
  have hdot : 0 < dot s s := dot_self_pos hs
  simp only [offsetAt, hpd]
  rw [← hs_def, vnorm_smul]
  rcases lt_trichotomy t 0 with hlt | heq | hgt
  · have habs : |t| = -t := abs_of_neg hlt
    have hd2 : (vnorm s / (|t| * vnorm s)) • t • s = (-1 : ℝ) • s := by
      rw [habs, smul_smul_v3]
      congr 1
      field_simp
      ring
    rw [hd2, signStep, dot_smul_right]
    have : (-1 : ℝ) * dot s s < 0 := by nlinarith
    rw [Real.sign_of_neg this, smul_smul_v3]
    norm_num
  · exact absurd heq ht
  · have habs : |t| = t := abs_of_pos hgt
    have hd2 : (vnorm s / (|t| * vnorm s)) • t • s = (1 : ℝ) • s := by
      rw [habs, smul_smul_v3]
      congr 1
      field_simp
      ring
    rw [hd2, signStep, dot_smul_right]
    have : 0 < (1 : ℝ) * dot s s := by nlinarith
    rw [Real.sign_of_pos this]
    norm_num

/-!
Tree traversal of `unravel` (lines 43-71).  `morphio.Morphology(filename)`
yields an immutable tree, `morphio.mut.Morphology(morph)` a mutable structural
copy, and `zip(morph.iter(), new_morph.iter())` walks both trees in the same
parent-before-child order.  A morphology is modelled as the list of its
sections in that iteration order; each section stores an optional parent
index, which for well-formed trees points strictly earlier in the list.
-/

instance : Inhabited V3 := ⟨0⟩

/-- One section: its parent (as an index into the iteration order, `none`
for a root) and its list of 3-D points. -/
structure MSection where
  parent : Option ℕ
  points : List V3

/-- Default section used for out-of-range lookups. -/
def dfltSec : MSection := ⟨none, []⟩

/-- A morphology: its sections in iteration order. -/
structure Morph where
  sections : List MSection

/-- Parents appear strictly before their children in iteration order
(guaranteed by `morph.iter()`). -/
def WellParented (m : Morph) : Prop :=
  ∀ k p, (m.sections.getD k dfltSec).parent = some p → p < k

/-- Initialisation of `unravelled_points` (lines 49-52): the first point of
the (not yet overwritten) copied section for a root, the parent's last
already-unravelled point otherwise.  `done` is the list of sections already
processed. -/
noncomputable def startPoint (done : List MSection) (s : MSection) : V3 :=
  match s.parent with
  | none => s.points.headI
  | some p => (done.getD p dfltSec).points.getLastD 0

/-- The section loop (lines 46-70): process the remaining sections in order,
appending each rebuilt section to `done`. -/
noncomputable def unravelGo (pd : List V3 → V3) (H : ℕ) :
    List MSection → List MSection → List MSection
  | done, [] => done
  | done, s :: rest =>
    unravelGo pd H
      (done ++ [⟨s.parent, unravelPoints pd H s.points (startPoint done s)⟩])
      rest

/-- The unravelled morphology returned by `unravel(filename, H)`; `pd` stands
for `_get_principal_direction`. -/
noncomputable def unravel (pd : List V3 → V3) (H : ℕ) (m : Morph) : Morph :=
  ⟨unravelGo pd H [] m.sections⟩

theorem unravelGo_length (pd : List V3 → V3) (H : ℕ) :
    ∀ (rest done : List MSection),
      (unravelGo pd H done rest).length = done.length + rest.length := by
  intro rest
  induction rest with
  | nil => intro done; simp [unravelGo]
  | cons s rest ih =>
    intro done
    simp only [unravelGo]
    rw [ih]
    simp
    omega

theorem unravelGo_stable (pd : List V3 → V3) (H : ℕ) :
    ∀ (rest done : List MSection) (j : ℕ), j < done.length →
      (unravelGo pd H done rest).getD j dfltSec = done.getD j dfltSec := by
  intro rest
  induction rest with
  | nil => intro done j _; rfl
  | cons s rest ih =>
    intro done j hj
    simp only [unravelGo]
    rw [ih _ j (by simp; omega)]
    exact List.getD_append _ _ _ _ hj

theorem unravelGo_spec (pd : List V3 → V3) (H : ℕ) :
    ∀ (rest done : List MSection) (k : ℕ), k < rest.length →
      (∀ p, (rest.getD k dfltSec).parent = some p → p < done.length + k) →
      (unravelGo pd H done rest).getD (done.length + k) dfltSec =
        ⟨(rest.getD k dfltSec).parent,
         unravelPoints pd H (rest.getD k dfltSec).points
           (startPoint (unravelGo pd H done rest) (rest.getD k dfltSec))⟩ := by
  intro rest
  induction rest with
  | nil => intro done k hk; simp at hk
  | cons s rest ih =>
    intro done k hk hpar
    set new : MSection :=
      ⟨s.parent, unravelPoints pd H s.points (startPoint done s)⟩ with hnew
    rcases k with _ | k
    · simp only [unravelGo, List.getD_cons_zero] at hpar ⊢
      have hlen : done.length < (done ++ [new]).length := by simp
      have hout :
          (unravelGo pd H (done ++ [new]) rest).getD done.length dfltSec
            = new := by
        rw [unravelGo_stable pd H rest _ _ hlen,
          List.getD_append_right _ _ _ _ (Nat.le_refl _)]
        simp
      rw [Nat.add_zero, hout]
      have hstart : startPoint done s =
          startPoint (unravelGo pd H (done ++ [new]) rest) s := by
        cases hp : s.parent with
        | none => simp [startPoint, hp]
        | some p =>
          have hplt : p < done.length := by
            have := hpar p hp
            omega
          simp only [startPoint, hp]
          rw [unravelGo_stable pd H rest _ _ (by simp; omega),
            List.getD_append _ _ _ _ hplt]
      rw [← hstart]
    · have hk' : k < rest.length := by simpa using hk
      simp only [unravelGo, List.getD_cons_succ] at hpar ⊢
      have harg : ∀ p, (rest.getD k dfltSec).parent = some p →
          p < (done ++ [new]).length + k := by
        intro p hp
        have := hpar p hp
        simp
        omega
      have := ih (done ++ [new]) k hk' harg
      rw [show done.length + (k + 1) = (done ++ [new]).length + k by
        simp; omega]
      exact this

/-- Parent pointers are preserved even without well-parentedness. -/
theorem unravelGo_parent (pd : List V3 → V3) (H : ℕ) :
    ∀ (rest done : List MSection) (k : ℕ), k < rest.length →
      ((unravelGo pd H done rest).getD (done.length + k) dfltSec).parent =
        (rest.getD k dfltSec).parent := by
  intro rest
  induction rest with
  | nil => intro done k hk; simp at hk
  | cons s rest ih =>
    intro done k hk
    set new : MSection :=
      ⟨s.parent, unravelPoints pd H s.points (startPoint done s)⟩ with hnew
    rcases k with _ | k
    · simp only [unravelGo, List.getD_cons_zero]
      have hlen : done.length < (done ++ [new]).length := by simp
      rw [Nat.add_zero, unravelGo_stable pd H rest _ _ hlen,
        List.getD_append_right _ _ _ _ (Nat.le_refl _)]
      simp
    · have hk' : k < rest.length := by simpa using hk
      simp only [unravelGo, List.getD_cons_succ]
      have := ih (done ++ [new]) k hk'
      rw [show done.length + (k + 1) = (done ++ [new]).length + k by
        simp; omega]
      exact this

/-- Every output section's point list is an `unravelPoints` of the matching
input section's point list (for some start point). -/
theorem unravelGo_points_ex (pd : List V3 → V3) (H : ℕ) :
    ∀ (rest done : List MSection) (k : ℕ), k < rest.length →
      ∃ st, ((unravelGo pd H done rest).getD (done.length + k) dfltSec).points
        = unravelPoints pd H ((rest.getD k dfltSec).points) st := by
  intro rest
  induction rest with
  | nil => intro done k hk; simp at hk
  | cons s rest ih =>
    intro done k hk
    set new : MSection :=
      ⟨s.parent, unravelPoints pd H s.points (startPoint done s)⟩ with hnew
    rcases k with _ | k
    · refine ⟨startPoint done s, ?_⟩
      simp only [unravelGo, List.getD_cons_zero]
      have hlen : done.length < (done ++ [new]).length := by simp
      rw [Nat.add_zero, unravelGo_stable pd H rest _ _ hlen,
        List.getD_append_right _ _ _ _ (Nat.le_refl _)]
      simp
    · have hk' : k < rest.length := by simpa using hk
      simp only [unravelGo, List.getD_cons_succ]
      have := ih (done ++ [new]) k hk'
      rw [show done.length + (k + 1) = (done ++ [new]).length + k by
        simp; omega]
      exact this

/-- For a cloud whose covariance matrix is the rank-one form
`w ↦ (S * (e·w)) • e` with `S > 0` and `e ≠ 0`, the principal directions are
exactly the nonzero multiples of `e`. -/
theorem rank1_principal (pts : List V3) (e : V3) (S : ℝ) (hS : 0 < S)
    (he : e ≠ 0) (hcov : ∀ w, covMul pts w = (S * dot e w) • e) (v : V3) :
    IsPrincipalDirection pts v ↔ ∃ t : ℝ, t ≠ 0 ∧ v = t • e := by
  have hee : 0 < dot e e := dot_self_pos he
  constructor
  · rintro ⟨hv, μ, heig, hmax⟩
    have heEig : covMul pts e = (S * dot e e) • e := hcov e
    have hmu_ge : S * dot e e ≤ μ := hmax e (S * dot e e) he heEig
    have hmu_pos : 0 < μ := lt_of_lt_of_le (mul_pos hS hee) hmu_ge
    have hv_eq : v = (μ⁻¹ * (S * dot e v)) • e := by
      have h1 : μ⁻¹ • (μ • v) = μ⁻¹ • ((S * dot e v) • e) := by
        rw [← heig, hcov]
      rw [smul_smul_v3, smul_smul_v3, inv_mul_cancel₀ (ne_of_gt hmu_pos),
        one_smul_v3] at h1
      exact h1
    refine ⟨μ⁻¹ * (S * dot e v), ?_, hv_eq⟩
    intro h0
    apply hv
    rw [hv_eq, h0, zero_smul_v3]
  · rintro ⟨t, ht, rfl⟩
    have hv : t • e ≠ 0 := by
      intro h0
      rcases smul_eq_zero_v3.mp h0 with h | h
      · exact ht h
      · exact he h
    refine ⟨hv, S * dot e e, ?_, ?_⟩
    · rw [hcov, dot_smul_right, smul_smul_v3]
      congr 1
      ring
    · intro w ν hw heq
      rw [hcov] at heq
      by_cases hν : ν = 0
      · rw [hν]
        positivity
      · set c := ν⁻¹ * (S * dot e w) with hc
        have hw_eq : w = c • e := by
          have h1 : ν⁻¹ • (ν • w) = ν⁻¹ • ((S * dot e w) • e) := by rw [heq]
          rw [smul_smul_v3, smul_smul_v3, inv_mul_cancel₀ hν, one_smul_v3] at h1
          exact h1
        have hcne : c ≠ 0 := by
          intro h0
          apply hw
          rw [hw_eq, h0, zero_smul_v3]
        have heq2 : (S * (c * dot e e)) • e = (ν * c) • e := by
          have h2 := heq
          rw [hw_eq, dot_smul_right, smul_smul_v3] at h2
          exact h2
        have h3 := smul_left_injective_v3 he heq2
        have h4 : (S * dot e e - ν) * c = 0 := by linear_combination h3
        rcases mul_eq_zero.mp h4 with h5 | h5
        · linarith
        · exact absurd h5 hcne

theorem sub_eq_zero_v3 {a b : V3} : a - b = 0 ↔ a = b := by
  constructor
  · intro h
    have hx := congrArg V3.x h
    have hy := congrArg V3.y h
    have hz := congrArg V3.z h
    simp at hx hy hz
    ext
    · linarith
    · linarith
    · linarith
  · rintro rfl
    ext <;> simp

/-! Concrete fixtures used by the scenario claims and the witnesses. -/

/-- The unit vector along the x axis. -/
def xUnit : V3 := ⟨1, 0, 0⟩

/-- The unit vector along the y axis. -/
def yUnit : V3 := ⟨0, 1, 0⟩

/-- Four collinear points on the x axis (the straight-line scenario). -/
def pts4 : List V3 := [⟨0, 0, 0⟩, ⟨1, 0, 0⟩, ⟨2, 0, 0⟩, ⟨3, 0, 0⟩]

/-- A single-root morphology around `pts4`. -/
def m4 : Morph := ⟨[⟨none, pts4⟩]⟩

/-- A zig-zag section whose middle segment is orthogonal to the principal
direction of the whole window: the centered covariance matrix is
`diag(4, 16, 0)`, so the principal direction is the y axis while the middle
segment runs along x. -/
def zig : List V3 := [⟨-1, -2, 0⟩, ⟨-1, 2, 0⟩, ⟨1, 2, 0⟩, ⟨1, -2, 0⟩]

/-- A single-root morphology around `zig`. -/
def mzig : Morph := ⟨[⟨none, zig⟩]⟩

/-- An estimator that returns the y axis, the (unique up to sign and scale)
principal direction of every window of `zig` used with `H = 5`. -/
def pdZig : List V3 → V3 := fun _ => yUnit

/-- An estimator that returns the x axis, the principal direction of every
window of the collinear fixtures. -/
def pdX : List V3 → V3 := fun _ => xUnit

theorem cov_pair (p0 p1 w : V3) :
    covMul [p0, p1] w = ((1 / 2 : ℝ) * dot (p1 - p0) w) • (p1 - p0) := by
  ext <;> simp [covMul, centered, mean, vsum, dot] <;> ring

theorem cov_pts4_first (w : V3) :
    covMul [⟨0, 0, 0⟩, ⟨1, 0, 0⟩, ⟨2, 0, 0⟩] w =
      ((2 : ℝ) * dot xUnit w) • xUnit := by
  ext <;> simp [covMul, centered, mean, vsum, dot, xUnit] <;> ring

theorem cov_pts4_all (w : V3) :
    covMul pts4 w = ((5 : ℝ) * dot xUnit w) • xUnit := by
  ext <;> simp [covMul, centered, mean, vsum, dot, xUnit, pts4] <;> ring

theorem cov_pts4_last (w : V3) :
    covMul [⟨1, 0, 0⟩, ⟨2, 0, 0⟩, ⟨3, 0, 0⟩] w =
      ((2 : ℝ) * dot xUnit w) • xUnit := by
  ext <;> simp [covMul, centered, mean, vsum, dot, xUnit] <;> ring

theorem cov_zig (w : V3) : covMul zig w = ⟨4 * w.x, 16 * w.y, 0⟩ := by
  ext <;> simp [covMul, centered, mean, vsum, dot, zig] <;> ring

/-- The y axis is a principal direction of the zig-zag cloud, and it is the
only one up to sign and scale. -/
theorem principal_zig : IsPrincipalDirection zig yUnit := by
  refine ⟨?_, 16, ?_, ?_⟩
  · intro h
    have := congrArg V3.y h
    simp [yUnit] at this
  · rw [cov_zig]
    ext <;> simp [yUnit]
  · intro w ν hw heq
    rw [cov_zig] at heq
    have hx := congrArg V3.x heq
    have hy := congrArg V3.y heq
    have hz := congrArg V3.z heq
    simp at hx hy hz
    by_cases hwy : w.y = 0
    · by_cases hwx : w.x = 0
      · have hwz : w.z ≠ 0 := by
          intro hwz
          exact hw (by ext <;> simp [hwx, hwy, hwz])
        rcases hz with h | h
        · linarith
        · exact absurd h hwz
      · rcases hx with h | h
        · linarith
        · exact absurd h hwx
    · rcases hy with h | h
      · linarith
      · exact absurd h hwy

theorem xUnit_ne_zero : xUnit ≠ 0 := by
  intro h
  have := congrArg V3.x h
  simp [xUnit] at this

theorem window_pts4_one : window 1 pts4 1 = [⟨0, 0, 0⟩, ⟨1, 0, 0⟩, ⟨2, 0, 0⟩] :=
  rfl

theorem window_pts4_two : window 1 pts4 2 = pts4 := rfl

theorem window_pts4_three : window 1 pts4 3 = [⟨1, 0, 0⟩, ⟨2, 0, 0⟩, ⟨3, 0, 0⟩] :=
  rfl

theorem window_zig_two : window 5 zig 2 = zig := rfl

/-- A two-point section is its own window, whatever the half length. -/
theorem window_pair (H : ℕ) (p0 p1 : V3) : window H [p0, p1] 1 = [p0, p1] := by
  have h1 : (windowStart 1 H).toNat = 0 := by rw [windowStart_toNat]; omega
  have h2 : (windowEnd 2 1 H).toNat = 2 := by rw [windowEnd_toNat]; omega
  simp only [window, List.length_cons, List.length_nil, h1, h2]
  rfl

theorem segAt_pts4_one : segAt pts4 1 = xUnit := by
  ext <;> simp [segAt, pts4, xUnit]

theorem segAt_pts4_two : segAt pts4 2 = xUnit := by
  ext <;> simp [segAt, pts4, xUnit] <;> norm_num

theorem segAt_pts4_three : segAt pts4 3 = xUnit := by
  ext <;> simp [segAt, pts4, xUnit] <;> norm_num

theorem segAt_pair (p0 p1 : V3) : segAt [p0, p1] 1 = p1 - p0 := by
  simp [segAt]

theorem headI_eq_getD (pts : List V3) : pts.headI = pts.getD 0 0 := by
  cases pts <;> rfl

/-- When every offset reproduces its original segment, the whole section is
reproduced. -/
theorem unravelAcc_id (pd : List V3 → V3) (H : ℕ) (pts : List V3) {n : ℕ}
    (hn : n < pts.length)
    (hoff : ∀ i, 1 ≤ i → i ≤ n → offsetAt pd H pts i = segAt pts i) :
    ∀ j, j ≤ n →
      (unravelAcc pd H pts (pts.getD 0 0) n).getD j 0 = pts.getD j 0 := by
  intro j
  induction j with
  | zero => intro _; exact unravelAcc_getD_zero pd H pts _ n
  | succ j ih =>
    intro hj
    have hseg := unravelAcc_seg pd H pts (pts.getD 0 0)
      (show 1 ≤ j + 1 by omega) hj
    rw [hoff (j + 1) (by omega) hj] at hseg
    have hprev := ih (by omega)
    have hx := congrArg V3.x hseg
    have hy := congrArg V3.y hseg
    have hz := congrArg V3.z hseg
    simp only [Nat.add_sub_cancel, segAt, Nat.add_sub_cancel] at hx hy hz
    rw [hprev] at hx hy hz
    simp at hx hy hz
    ext
    · have := congrArg V3.x hprev
      simp [segAt] at hx ⊢
      linarith
    · simp [segAt] at hy ⊢
      linarith
    · simp [segAt] at hz ⊢
      linarith

/-- A section whose offsets all reproduce their segments unravels to itself. -/
theorem unravelPoints_id (pd : List V3 → V3) (H : ℕ) (pts : List V3)
    (hne : pts ≠ [])
    (hoff : ∀ i, 1 ≤ i → i < pts.length → offsetAt pd H pts i = segAt pts i) :
    unravelPoints pd H pts (pts.getD 0 0) = pts := by
  have hlen : (unravelPoints pd H pts (pts.getD 0 0)).length = pts.length :=
    unravelPoints_length pd H pts _ hne
  have hpos : 0 < pts.length := List.length_pos.mpr hne
  apply List.ext_getElem hlen
  intro j hj1 hj2
  have hid := unravelAcc_id pd H pts (show pts.length - 1 < pts.length by omega)
    (fun i h1 h2 => hoff i h1 (by omega)) j (by omega)
  rw [← List.getD_eq_getElem _ 0 hj1, ← List.getD_eq_getElem _ 0 hj2]
  exact hid

/-- Unravelling a morphology with a single root section. -/
theorem unravel_single_root (pd : List V3 → V3) (H : ℕ) (pts : List V3) :
    unravel pd H ⟨[⟨none, pts⟩]⟩ =
      ⟨[⟨none, unravelPoints pd H pts pts.headI⟩]⟩ := rfl

/-!
Heap model for the mutation claims.  The only in-place numpy operation in the
module is `X -= np.mean(X, axis=0)` inside `_get_principal_direction`, and it
is applied to `X = np.copy(np.asarray(points))`, a freshly allocated buffer.
A store is a list of buffers; `np.copy` appends a fresh buffer at the end of
the store and the in-place subtraction overwrites only that fresh buffer.
-/

/-- The state effect of `_get_principal_direction` (lines 21-22): allocate a
copy of the caller's points at the end of the store, then centre that copy in
place.  (`centered` is exactly `X -= np.mean(X, axis=0)`.) -/
noncomputable def principalDirState (σ : List (List V3)) (pts : List V3) :
    List (List V3) :=
  (σ ++ [pts]).set σ.length (centered pts)

theorem principalDirState_length (σ : List (List V3)) (pts : List V3) :
    (principalDirState σ pts).length = σ.length + 1 := by
  simp [principalDirState]

/-- The estimator's in-place centering never touches a pre-existing buffer. -/
theorem principalDirState_frame (σ : List (List V3)) (pts : List V3) (r : ℕ)
    (hr : r < σ.length) :
    (principalDirState σ pts).getD r [] = σ.getD r [] := by
  have hr2 : r < (principalDirState σ pts).length := by
    rw [principalDirState_length]; omega
  have hr3 : r < ((σ ++ [pts]).set σ.length (centered pts)).length := hr2
  rw [principalDirState, List.getD_eq_getElem _ _ hr3,
    List.getD_eq_getElem _ _ hr]
  rw [List.getElem_set_ne (by omega)]
  exact List.getElem_append_left hr

/-- The mutated fresh buffer holds the centered copy, not the original. -/
theorem principalDirState_fresh (σ : List (List V3)) (pts : List V3) :
    (principalDirState σ pts).getD σ.length [] = centered pts := by
  have hlt : σ.length < ((σ ++ [pts]).set σ.length (centered pts)).length := by
    simp
  rw [principalDirState, List.getD_eq_getElem _ _ hlt]
  rw [List.getElem_set_self]

/-- Store-passing version of the inner loop of `unravel`: iteration
`window_center = n` has called the estimator (mutating the store) once per
segment, while building the same `unravelled_points` as the pure model. -/
noncomputable def unravelAccS (pd : List V3 → V3) (H : ℕ) (pts : List V3)
    (start : V3) : ℕ → List (List V3) → List (List V3) × List V3
  | 0, σ => (σ, [start])
  | n + 1, σ =>
    let res := unravelAccS pd H pts start n σ
    let σ2 := principalDirState res.1 (window H pts (n + 1))
    (σ2, res.2 ++ [offsetAt pd H pts (n + 1) + res.2.getD n 0])

theorem unravelAccS_spec (pd : List V3 → V3) (H : ℕ) (pts : List V3)
    (start : V3) :
    ∀ (n : ℕ) (σ : List (List V3)),
      σ.length ≤ ((unravelAccS pd H pts start n σ).1).length ∧
      (∀ r, r < σ.length →
        ((unravelAccS pd H pts start n σ).1).getD r [] = σ.getD r []) ∧
      (unravelAccS pd H pts start n σ).2 = unravelAcc pd H pts start n := by
  intro n
  induction n with
  | zero => intro σ; exact ⟨Nat.le_refl _, fun r _ => rfl, rfl⟩
  | succ n ih =>
    intro σ
    obtain ⟨hlen, hframe, hval⟩ := ih σ
    refine ⟨?_, ?_, ?_⟩
    · simp only [unravelAccS]
      rw [principalDirState_length]
      omega
    · intro r hr
      simp only [unravelAccS]
      rw [principalDirState_frame _ _ _ (by omega)]
      exact hframe r hr
    · simp only [unravelAccS, unravelAcc]
      rw [hval]

/-!
Batch driver `unravel_all` (lines 74-86):

    files = list(filter(good_ext, os.listdir(input_dir)))
    for f in files:
        try:
            unravel(inputfilename, window_half_length).write(outfilename)
        except Exception as e:
            L.warning('Unravelling %s failed', f)

`good_ext` lives in `repair.utils` (outside this module) and is abstracted as
a Boolean predicate on filenames.  The body of the `try` — unravelling the
file and writing the result — is abstracted as a function `run` from the
filename to `Except`: `ok` when the unravel-and-write succeeded, `error`
when any exception was raised.  The driver returns the files written and the
files for which a warning was logged, in processing order.
-/

/-- Whether the unravel-and-write action succeeded. -/
def isOkB : Except String Unit → Bool
  | Except.ok _ => true
  | Except.error _ => false

/-- The `for f in files` loop with its per-file `try/except`. -/
def unravelAllGo (run : String → Except String Unit) :
    List String → List String × List String
  | [] => ([], [])
  | f :: rest =>
    let res := unravelAllGo run rest
    match run f with
    | Except.ok _ => (f :: res.1, res.2)
    | Except.error _ => (res.1, f :: res.2)

/-- `unravel_all(input_dir, output_dir, window_half_length)`: filter the
listing by extension, then run the loop. -/
def unravelAll (goodExt : String → Bool)
    (run : String → Except String Unit) (listing : List String) :
    List String × List String :=
  unravelAllGo run (listing.filter goodExt)

theorem unravelAllGo_eq (run : String → Except String Unit) :
    ∀ files : List String,
      unravelAllGo run files =
        (files.filter (fun f => isOkB (run f)),
         files.filter (fun f => !(isOkB (run f)))) := by
  intro files
  induction files with
  | nil => rfl
  | cons f rest ih =>
    simp only [unravelAllGo, ih]
    cases hf : run f <;> simp [List.filter, isOkB, hf]

theorem principal_three_first (v : V3) :
    IsPrincipalDirection [⟨0, 0, 0⟩, ⟨1, 0, 0⟩, ⟨2, 0, 0⟩] v ↔
      ∃ t : ℝ, t ≠ 0 ∧ v = t • xUnit :=
  rank1_principal _ xUnit 2 (by norm_num) xUnit_ne_zero cov_pts4_first v

theorem principal_pts4 (v : V3) :
    IsPrincipalDirection pts4 v ↔ ∃ t : ℝ, t ≠ 0 ∧ v = t • xUnit :=
  rank1_principal _ xUnit 5 (by norm_num) xUnit_ne_zero cov_pts4_all v

theorem principal_three_last (v : V3) :
    IsPrincipalDirection [⟨1, 0, 0⟩, ⟨2, 0, 0⟩, ⟨3, 0, 0⟩] v ↔
      ∃ t : ℝ, t ≠ 0 ∧ v = t • xUnit :=
  rank1_principal _ xUnit 2 (by norm_num) xUnit_ne_zero cov_pts4_last v

theorem principal_pair {p0 p1 : V3} (hne : p0 ≠ p1) (v : V3) :
    IsPrincipalDirection [p0, p1] v ↔
      ∃ t : ℝ, t ≠ 0 ∧ v = t • (p1 - p0) :=
  rank1_principal _ (p1 - p0) (1 / 2) (by norm_num)
    (fun h => hne (sub_eq_zero_v3.mp h).symm) (cov_pair p0 p1) v

/-!
The claims.
-/

/-- C3 counterexample.  At the zig-zag fixture, segment 2 is exactly
orthogonal to the estimated (and rescaled) window direction; the code's
`direction *= np.sign(np.dot(segment, direction))` multiplies by
`np.sign(0) = 0`, so the appended offset is the zero vector and *not* the
rescaled direction, which is nonzero. -/
theorem C3_sign_cex :
    dot (segAt zig 2) (pdZig (window 5 zig 2)) = 0 ∧
    offsetAt pdZig 5 zig 2 = 0 ∧
    (vnorm (segAt zig 2) / vnorm (pdZig (window 5 zig 2))) •
      pdZig (window 5 zig 2) ≠ 0 := by
  have hdot : dot (segAt zig 2) (pdZig (window 5 zig 2)) = 0 := by
    simp [segAt, zig, dot, pdZig, yUnit]
  have hs : segAt zig 2 ≠ 0 := by
    intro h
    have := congrArg V3.x h
    simp [segAt, zig] at this
  have hd : pdZig (window 5 zig 2) ≠ 0 := by
    intro h
    have := congrArg V3.y h
    simp [pdZig, yUnit] at this
  refine ⟨hdot, offsetAt_dot_zero pdZig 5 zig 2 hdot, ?_⟩
  intro h
  rcases smul_eq_zero_v3.mp h with h0 | h0
  · have := div_ne_zero (ne_of_gt (vnorm_pos hs)) (ne_of_gt (vnorm_pos hd))
    exact this h0
  · exact hd h0

/-- C3 (amended).  The sign-resolution step `d *= np.sign(s · d)` always makes
the dot product with the original segment non-negative; but when `s · d = 0`
the factor `np.sign(0) = 0` collapses the direction to the zero vector
(rather than leaving the rescaled direction unchanged). -/
theorem C3_sign_step (s d : V3) :
    0 ≤ dot s (signStep s d) ∧ (dot s d = 0 → signStep s d = 0) := by
  constructor
  · rw [signStep, dot_smul_right]
    rcases lt_trichotomy (dot s d) 0 with hlt | heq | hgt
    · rw [Real.sign_of_neg hlt]
      nlinarith
    · rw [heq]
      simp
    · rw [Real.sign_of_pos hgt]
      nlinarith
  · intro h
    rw [signStep, h, Real.sign_zero, zero_smul_v3]

/-- C3 witness: the sign step evaluated at the orthogonal concrete pair. -/
theorem C3_sign_step_w :
    0 ≤ dot ⟨2, 0, 0⟩ (signStep ⟨2, 0, 0⟩ ⟨0, 2, 0⟩) ∧
      signStep (⟨2, 0, 0⟩ : V3) ⟨0, 2, 0⟩ = 0 :=
  ⟨(C3_sign_step ⟨2, 0, 0⟩ ⟨0, 2, 0⟩).1,
   (C3_sign_step ⟨2, 0, 0⟩ ⟨0, 2, 0⟩).2 (by simp [dot])⟩

/-- C4.  The window for segment `i` is exactly the slice of the original
points over `[max(0, i-H-1), min(point_count, i+H+1))`: its bounds stay
inside `[0, point_count]`, its `j`-th element is the original point at index
`window_start + j` (always in range), and with `H = 0` it is exactly the two
points adjacent to the segment. -/
theorem C4_window (H : ℕ) (pts : List V3) (i : ℕ) (h1 : 1 ≤ i)
    (h2 : i < pts.length) :
    (0 : ℤ) ≤ windowStart i H ∧
    windowEnd pts.length i H ≤ (pts.length : ℤ) ∧
    (∀ j, j < (window H pts i).length →
      (window H pts i).getD j 0 = pts.getD ((windowStart i H).toNat + j) 0 ∧
      (windowStart i H).toNat + j < pts.length) ∧
    (H = 0 → window 0 pts i = [pts.getD (i - 1) 0, pts.getD i 0]) := by
  refine ⟨le_max_left _ _, min_le_left _ _, ?_, ?_⟩
  · intro j hj
    refine ⟨window_getD H pts i j hj, ?_⟩
    have hlen := window_length H pts i
    have := windowStart_toNat i H
    have := windowEnd_toNat pts.length i H
    omega
  · intro hH
    have ha : (windowStart i 0).toNat = i - 1 := by
      rw [windowStart_toNat]
    have hb : (windowEnd pts.length i 0).toNat = i + 1 := by
      rw [windowEnd_toNat]; omega
    have hlen : (window 0 pts i).length = 2 := by
      rw [window_length, ha, hb]; omega
    apply List.ext_getElem (by rw [hlen]; rfl)
    intro j hj1 hj2
    have hj : j < 2 := by omega
    interval_cases j
    · rw [← List.getD_eq_getElem _ 0 hj1, ← List.getD_eq_getElem _ 0 hj2,
        window_getD 0 pts i 0 (by omega), ha]
      simp
    · rw [← List.getD_eq_getElem _ 0 hj1, ← List.getD_eq_getElem _ 0 hj2,
        window_getD 0 pts i 1 (by omega), ha]
      have : i - 1 + 1 = i := by omega
      rw [this]
      simp

/-- C4 witness: the window of the straight-line fixture at `H = 0`, `i = 1`. -/
theorem C4_window_w :
    ((1 : ℕ) ≤ 1 ∧ 1 < pts4.length) ∧
      window 0 pts4 1 = [pts4.getD 0 0, pts4.getD 1 0] := by
  refine ⟨⟨Nat.le_refl 1, by norm_num [pts4]⟩, ?_⟩
  exact (C4_window 0 pts4 1 (Nat.le_refl 1) (by norm_num [pts4])).2.2.2 rfl

/-- C10.  For every half length and every in-range segment index the window
contains the two segment endpoints: its start is at most `i - 1`, its end at
least `i + 1`, it holds at least two points (so the estimator's centroid
never sees an empty cloud), and the points at offsets `i-1` and `i` of the
original list appear in it at the expected positions. -/
theorem C10_window_contains (H : ℕ) (pts : List V3) (i : ℕ) (h1 : 1 ≤ i)
    (h2 : i < pts.length) :
    (windowStart i H).toNat ≤ i - 1 ∧
    i + 1 ≤ (windowEnd pts.length i H).toNat ∧
    2 ≤ (window H pts i).length ∧
    (window H pts i).getD (i - 1 - (windowStart i H).toNat) 0 =
      pts.getD (i - 1) 0 ∧
    (window H pts i).getD (i - (windowStart i H).toNat) 0 = pts.getD i 0 := by
  have ha := windowStart_toNat i H
  have hb := windowEnd_toNat pts.length i H
  have hlen := window_length H pts i
  refine ⟨by omega, by omega, by omega, ?_, ?_⟩
  · rw [window_getD H pts i _ (by omega)]
    have : (windowStart i H).toNat + (i - 1 - (windowStart i H).toNat) =
        i - 1 := by omega
    rw [this]
  · rw [window_getD H pts i _ (by omega)]
    have : (windowStart i H).toNat + (i - (windowStart i H).toNat) = i := by
      omega
    rw [this]

/-- C10 witness: the window of the straight-line fixture at `H = 1`,
`i = 2`. -/
theorem C10_window_contains_w :
    ((1 : ℕ) ≤ 2 ∧ 2 < pts4.length) ∧
      2 ≤ (window 1 pts4 2).length ∧
      (window 1 pts4 2).getD 1 0 = pts4.getD 1 0 ∧
      (window 1 pts4 2).getD 2 0 = pts4.getD 2 0 := by
  have h := C10_window_contains 1 pts4 2 (by norm_num) (by norm_num [pts4])
  have ha : (windowStart 2 1).toNat = 0 := by rw [windowStart_toNat]
  refine ⟨⟨by norm_num, by norm_num [pts4]⟩, h.2.2.1, ?_, ?_⟩
  · have := h.2.2.2.1
    rw [ha] at this
    exact this
  · have := h.2.2.2.2
    rw [ha] at this
    exact this

/-- C1 counterexample.  On the zig-zag section, the principal direction of
the window of segment 2 (the claim's own estimator contract is exhibited for
it) is orthogonal to that segment, `np.sign(0) = 0` zeroes the offset, and
the output segment has length 0 while the input segment has length 2 — the
claimed equality of segment lengths fails. -/
theorem C1_length_cex :
    IsPrincipalDirection (window 5 zig 2) (pdZig (window 5 zig 2)) ∧
    vnorm (((unravel pdZig 5 mzig).sections.getD 0 dfltSec).points.getD 2 0 -
        ((unravel pdZig 5 mzig).sections.getD 0 dfltSec).points.getD 1 0) ≠
      vnorm (zig.getD 2 0 - zig.getD 1 0) := by
  constructor
  · rw [window_zig_two]
    exact principal_zig
  · have hdot : dot (segAt zig 2) (pdZig (window 5 zig 2)) = 0 := by
      simp [segAt, zig, dot, pdZig, yUnit]
    have hsec : (unravel pdZig 5 mzig).sections.getD 0 dfltSec =
        ⟨none, unravelPoints pdZig 5 zig zig.headI⟩ := rfl
    rw [hsec]
    have hseg : (unravelPoints pdZig 5 zig zig.headI).getD 2 0 -
        (unravelPoints pdZig 5 zig zig.headI).getD 1 0 =
        offsetAt pdZig 5 zig 2 :=
      unravelPoints_seg pdZig 5 zig zig.headI (by norm_num)
        (by norm_num [zig])
    show vnorm ((unravelPoints pdZig 5 zig zig.headI).getD 2 0 -
        (unravelPoints pdZig 5 zig zig.headI).getD 1 0) ≠
      vnorm (zig.getD 2 0 - zig.getD 1 0)
    rw [hseg, offsetAt_dot_zero pdZig 5 zig 2 hdot, vnorm_zero]
    have hsne : zig.getD 2 0 - zig.getD 1 0 ≠ 0 := by
      intro h
      have := congrArg V3.x h
      simp [zig] at this
    exact (vnorm_pos hsne).ne

/-- C1 (amended).  For every section, start point, half length and in-range
segment index: when the estimated window direction is not exactly orthogonal
to the original segment, the output segment has exactly the input segment's
Euclidean length; when it is exactly orthogonal (`s · d = 0`),
`np.sign(0) = 0` collapses the output segment to a single point. -/
theorem C1_length_preservation (pd : List V3 → V3) (H : ℕ) (pts : List V3)
    (start : V3) (i : ℕ) (h1 : 1 ≤ i) (h2 : i < pts.length) :
    (dot (segAt pts i) (pd (window H pts i)) ≠ 0 →
      vnorm ((unravelPoints pd H pts start).getD i 0 -
          (unravelPoints pd H pts start).getD (i - 1) 0) =
        vnorm (segAt pts i)) ∧
    (dot (segAt pts i) (pd (window H pts i)) = 0 →
      (unravelPoints pd H pts start).getD i 0 =
        (unravelPoints pd H pts start).getD (i - 1) 0) := by
  have hseg := unravelPoints_seg pd H pts start h1 h2
  constructor
  · intro hd
    rw [hseg]
    exact offsetAt_norm pd H pts i hd
  · intro hd
    have h0 := hseg.trans (offsetAt_dot_zero pd H pts i hd)
    exact sub_eq_zero_v3.mp h0

/-- C1 witness: a two-point segment along the x axis with the x-axis
estimator preserves its length. -/
theorem C1_length_preservation_w :
    ((1 : ℕ) ≤ 1 ∧ 1 < ([0, xUnit] : List V3).length) ∧
      vnorm ((unravelPoints pdX 5 [0, xUnit] 0).getD 1 0 -
          (unravelPoints pdX 5 [0, xUnit] 0).getD 0 0) =
        vnorm (segAt [0, xUnit] 1) := by
  refine ⟨⟨Nat.le_refl 1, by norm_num⟩, ?_⟩
  exact (C1_length_preservation pdX 5 [0, xUnit] 0 1 (Nat.le_refl 1)
    (by norm_num)).1 (by simp [segAt, pdX, dot, xUnit])

/-- C2.  In the output tree, a root section's first point is the input
section's first point, and a non-root section's first point is its parent's
last output point (the iteration order processes parents first). -/
theorem C2_connectivity (pd : List V3 → V3) (H : ℕ) (m : Morph) (k : ℕ)
    (hk : k < m.sections.length) (hwf : WellParented m) :
    (((unravel pd H m).sections.getD k dfltSec).parent = none →
      ((unravel pd H m).sections.getD k dfltSec).points.getD 0 0 =
        (m.sections.getD k dfltSec).points.getD 0 0) ∧
    (∀ p, ((unravel pd H m).sections.getD k dfltSec).parent = some p →
      ((unravel pd H m).sections.getD k dfltSec).points.getD 0 0 =
        ((unravel pd H m).sections.getD p dfltSec).points.getLastD 0) := by
  have hspec := unravelGo_spec pd H m.sections [] k hk
    (fun p hp => by simpa using hwf k p hp)
  simp only [List.length_nil, Nat.zero_add] at hspec
  have hout : (unravel pd H m).sections.getD k dfltSec =
      ⟨(m.sections.getD k dfltSec).parent,
       unravelPoints pd H (m.sections.getD k dfltSec).points
         (startPoint (unravelGo pd H [] m.sections)
           (m.sections.getD k dfltSec))⟩ := hspec
  constructor
  · intro hroot
    rw [hout] at hroot ⊢
    simp only at hroot ⊢
    rw [unravelPoints_getD_zero, startPoint, hroot]
    exact (headI_eq_getD _)
  · intro p hp
    rw [hout] at hp ⊢
    simp only at hp ⊢
    rw [unravelPoints_getD_zero, startPoint, hp]
    rfl

/-- C2 requires a well-parented morphology; `m4` is one. -/
theorem wellParented_m4 : WellParented m4 := by
  intro k p h
  rcases k with _ | k
  · simp [m4, dfltSec] at h
  · rw [List.getD_eq_default] at h
    · simp [dfltSec] at h
    · simp [m4]

/-- C2 witness: the straight-line single-root morphology. -/
theorem C2_connectivity_w :
    ((0 : ℕ) < m4.sections.length ∧ WellParented m4) ∧
      (((unravel pdX 1 m4).sections.getD 0 dfltSec).parent = none →
        ((unravel pdX 1 m4).sections.getD 0 dfltSec).points.getD 0 0 =
          (m4.sections.getD 0 dfltSec).points.getD 0 0) := by
  refine ⟨⟨by norm_num [m4], wellParented_m4⟩, ?_⟩
  exact (C2_connectivity pdX 1 m4 0 (by norm_num [m4]) wellParented_m4).1

/-- C5.  The output tree has the same number of sections, the same parent
links, and (for sections with at least one point, which the file format
guarantees) the same per-section point counts as the input tree. -/
theorem C5_topology (pd : List V3 → V3) (H : ℕ) (m : Morph)
    (hne : ∀ j, j < m.sections.length →
      (m.sections.getD j dfltSec).points ≠ []) :
    (unravel pd H m).sections.length = m.sections.length ∧
    ∀ k, k < m.sections.length →
      ((unravel pd H m).sections.getD k dfltSec).parent =
        (m.sections.getD k dfltSec).parent ∧
      ((unravel pd H m).sections.getD k dfltSec).points.length =
        (m.sections.getD k dfltSec).points.length := by
  constructor
  · show (unravelGo pd H [] m.sections).length = m.sections.length
    rw [unravelGo_length]
    simp
  · intro k hk
    constructor
    · have := unravelGo_parent pd H m.sections [] k hk
      simpa using this
    · obtain ⟨st, hst⟩ := unravelGo_points_ex pd H m.sections [] k hk
      simp only [List.length_nil, Nat.zero_add] at hst
      show ((unravelGo pd H [] m.sections).getD k dfltSec).points.length = _
      rw [hst]
      exact unravelPoints_length pd H _ st (hne k hk)

/-- C5 witness: the straight-line single-root morphology. -/
theorem C5_topology_w :
    (∀ j, j < m4.sections.length →
      (m4.sections.getD j dfltSec).points ≠ []) ∧
    (unravel pdX 1 m4).sections.length = m4.sections.length := by
  have hne : ∀ j, j < m4.sections.length →
      (m4.sections.getD j dfltSec).points ≠ [] := by
    intro j hj
    have hj0 : j = 0 := by
      simp [m4] at hj
      omega
    subst hj0
    simp [m4, pts4]
  exact ⟨hne, (C5_topology pdX 1 m4 hne).1⟩

/-- C6.  The straight-line section (0,0,0),(1,0,0),(2,0,0),(3,0,0) with
`H = 1` unravels to itself, for any estimator satisfying the
principal-direction contract on the three windows involved: collinear
windows force the estimated direction onto the segment direction, so every
correction vanishes. -/
theorem C6_straight_line (pd : List V3 → V3)
    (h1 : IsPrincipalDirection (window 1 pts4 1) (pd (window 1 pts4 1)))
    (h2 : IsPrincipalDirection (window 1 pts4 2) (pd (window 1 pts4 2)))
    (h3 : IsPrincipalDirection (window 1 pts4 3) (pd (window 1 pts4 3))) :
    unravel pd 1 m4 = m4 := by
  have ho1 : offsetAt pd 1 pts4 1 = segAt pts4 1 := by
    rw [window_pts4_one] at h1
    rcases (principal_three_first _).mp h1 with ⟨t, ht, hv⟩
    refine offsetAt_parallel pd 1 pts4 1 ht ?_ ?_
    · rw [segAt_pts4_one]
      exact xUnit_ne_zero
    · rw [window_pts4_one, segAt_pts4_one, hv]
  have ho2 : offsetAt pd 1 pts4 2 = segAt pts4 2 := by
    rw [window_pts4_two] at h2
    rcases (principal_pts4 _).mp h2 with ⟨t, ht, hv⟩
    refine offsetAt_parallel pd 1 pts4 2 ht ?_ ?_
    · rw [segAt_pts4_two]
      exact xUnit_ne_zero
    · rw [window_pts4_two, segAt_pts4_two, hv]
  have ho3 : offsetAt pd 1 pts4 3 = segAt pts4 3 := by
    rw [window_pts4_three] at h3
    rcases (principal_three_last _).mp h3 with ⟨t, ht, hv⟩
    refine offsetAt_parallel pd 1 pts4 3 ht ?_ ?_
    · rw [segAt_pts4_three]
      exact xUnit_ne_zero
    · rw [window_pts4_three, segAt_pts4_three, hv]
  have hoff : ∀ i, 1 ≤ i → i < pts4.length →
      offsetAt pd 1 pts4 i = segAt pts4 i := by
    intro i hi1 hi2
    have hi4 : i < 4 := by simpa [pts4] using hi2
    interval_cases i
    · exact ho1
    · exact ho2
    · exact ho3
  have hid := unravelPoints_id pd 1 pts4 (by simp [pts4]) hoff
  show unravel pd 1 ⟨[⟨none, pts4⟩]⟩ = ⟨[⟨none, pts4⟩]⟩
  rw [unravel_single_root, headI_eq_getD, hid]

/-- C6 witness: the x-axis estimator satisfies the contract on all three
windows, and the straight line is reproduced. -/
theorem C6_straight_line_w :
    (IsPrincipalDirection (window 1 pts4 1) (pdX (window 1 pts4 1)) ∧
     IsPrincipalDirection (window 1 pts4 2) (pdX (window 1 pts4 2)) ∧
     IsPrincipalDirection (window 1 pts4 3) (pdX (window 1 pts4 3))) ∧
    unravel pdX 1 m4 = m4 := by
  have w1 : IsPrincipalDirection (window 1 pts4 1) (pdX (window 1 pts4 1)) := by
    rw [window_pts4_one]
    exact (principal_three_first xUnit).mpr
      ⟨1, one_ne_zero, (one_smul_v3 xUnit).symm⟩
  have w2 : IsPrincipalDirection (window 1 pts4 2) (pdX (window 1 pts4 2)) := by
    rw [window_pts4_two]
    exact (principal_pts4 xUnit).mpr ⟨1, one_ne_zero, (one_smul_v3 xUnit).symm⟩
  have w3 : IsPrincipalDirection (window 1 pts4 3) (pdX (window 1 pts4 3)) := by
    rw [window_pts4_three]
    exact (principal_three_last xUnit).mpr
      ⟨1, one_ne_zero, (one_smul_v3 xUnit).symm⟩
  exact ⟨⟨w1, w2, w3⟩, C6_straight_line pdX w1 w2 w3⟩

/-- C7.  A root section of exactly two distinct points unravels to itself for
every half length: the window is the whole section, its principal direction
is the segment direction up to sign and scale, and rescaling plus sign
resolution reproduce the segment. -/
theorem C7_two_point_section (pd : List V3 → V3) (H : ℕ) (p0 p1 : V3)
    (hne : p0 ≠ p1)
    (hpd : IsPrincipalDirection [p0, p1] (pd [p0, p1])) :
    unravel pd H ⟨[⟨none, [p0, p1]⟩]⟩ = ⟨[⟨none, [p0, p1]⟩]⟩ := by
  have hoff : ∀ i, 1 ≤ i → i < ([p0, p1] : List V3).length →
      offsetAt pd H [p0, p1] i = segAt [p0, p1] i := by
    intro i hi1 hi2
    have hi : i = 1 := by
      simp at hi2
      omega
    subst hi
    rcases (principal_pair hne _).mp hpd with ⟨t, ht, hv⟩
    refine offsetAt_parallel pd H [p0, p1] 1 ht ?_ ?_
    · rw [segAt_pair]
      intro h
      exact hne (sub_eq_zero_v3.mp h).symm
    · rw [window_pair, segAt_pair, hv]
  have hid := unravelPoints_id pd H [p0, p1] (by simp) hoff
  rw [unravel_single_root, headI_eq_getD, hid]

/-- C7 witness: the two-point section from the origin to the x unit vector,
with the x-axis estimator and `H = 0`. -/
theorem C7_two_point_section_w :
    ((0 : V3) ≠ xUnit ∧
     IsPrincipalDirection [0, xUnit] (pdX [0, xUnit])) ∧
    unravel pdX 0 ⟨[⟨none, [0, xUnit]⟩]⟩ = ⟨[⟨none, [0, xUnit]⟩]⟩ := by
  have hne : (0 : V3) ≠ xUnit := by
    intro h
    have := congrArg V3.x h
    simp [xUnit] at this
  have hpd : IsPrincipalDirection [0, xUnit] (pdX [0, xUnit]) := by
    refine (principal_pair hne _).mpr ⟨1, one_ne_zero, ?_⟩
    show xUnit = (1 : ℝ) • (xUnit - 0)
    ext <;> simp
  exact ⟨⟨hne, hpd⟩, C7_two_point_section pdX 0 0 xUnit hne hpd⟩

/-- C8.  The inner loop run in the explicit-store model: no pre-existing
buffer (in particular the caller's point list) is ever modified, the values
computed agree with the pure model, and the estimator's in-place centering
lands entirely in the buffer freshly allocated by `np.copy`. -/
theorem C8_no_input_mutation (pd : List V3 → V3) (H : ℕ) (pts : List V3)
    (start : V3) (n : ℕ) (σ : List (List V3)) (r : ℕ) (hr : r < σ.length) :
    ((unravelAccS pd H pts start n σ).1).getD r [] = σ.getD r [] ∧
    (unravelAccS pd H pts start n σ).2 = unravelAcc pd H pts start n ∧
    (principalDirState σ pts).getD σ.length [] = centered pts := by
  obtain ⟨_, hframe, hval⟩ := unravelAccS_spec pd H pts start n σ
  exact ⟨hframe r hr, hval, principalDirState_fresh σ pts⟩

/-- C8 witness: one loop iteration over the straight-line points leaves the
stored input buffer untouched. -/
theorem C8_no_input_mutation_w :
    (0 < ([pts4] : List (List V3)).length) ∧
    ((unravelAccS pdX 1 pts4 0 1 [pts4]).1).getD 0 [] =
      ([pts4] : List (List V3)).getD 0 [] := by
  refine ⟨by norm_num, ?_⟩
  exact (C8_no_input_mutation pdX 1 pts4 0 1 [pts4] 0 (by norm_num)).1

theorem length_filter_split {α : Type} (p : α → Bool) (l : List α) :
    (l.filter p).length + (l.filter (fun a => !(p a))).length = l.length := by
  induction l with
  | nil => rfl
  | cons a l ih =>
    cases hpa : p a <;> simp [List.filter_cons, hpa] <;> omega

/-- C9.  The batch driver processes every file of the filtered listing:
output is written exactly for the files whose unravel-and-write action
succeeded, a warning is recorded exactly for the files whose action raised,
and together they exhaust the listing — one failure never stops the rest. -/
theorem C9_batch_isolation (goodExt : String → Bool)
    (run : String → Except String Unit) (listing : List String) :
    (unravelAll goodExt run listing).1 =
      (listing.filter goodExt).filter (fun f => isOkB (run f)) ∧
    (unravelAll goodExt run listing).2 =
      (listing.filter goodExt).filter (fun f => !(isOkB (run f))) ∧
    (unravelAll goodExt run listing).1.length +
      (unravelAll goodExt run listing).2.length =
      (listing.filter goodExt).length := by
  have h := unravelAllGo_eq run (listing.filter goodExt)
  refine ⟨?_, ?_, ?_⟩
  · rw [unravelAll, h]
  · rw [unravelAll, h]
  · rw [unravelAll, h]
    exact length_filter_split _ _

end NeuroR
